import Mathlib

set_option autoImplicit false

/-!
Shallow embedding of `main.go` from `pointlander/salesman` (fixed `Size = 4`
traveling-salesman experiment harness), together with proofs about the
embedded definitions.

Floating-point values are modelled by `ℚ`: every arithmetic operation the
embedded tour-construction code performs on matrix entries is addition and
order comparison, and the Go sentinel `math.MaxFloat64` is modelled by
`Option` accumulators (`none` plays the role of the sentinel: any finite
candidate strictly beats it, which is exactly how the code behaves on finite
inputs).  External collaborators (the eigendecomposition, the PageRank
library, the k-means partitioner, the trained network weights) enter the
functions below as parameters, since their numeric output is produced outside
this repository; they influence the embedded code only through order
comparisons on the derived affinity matrices.
-/

namespace Salesman

/-- Constant `Size` is the size of the matrix (`const Size = 4` in the source). -/
def Size : Nat := 4

/-- A `Size × Size` matrix of exactly-represented reals; the Go code stores it
flat as `a[i*Size+j]`, here curried. -/
abbrev Mat := Fin 4 → Fin 4 → ℚ

/-- Cost accumulation `total += a[last*Size+node]` along the remainder of a
walk, starting at `last`.  Embeds the loop
`last := loop[0]; for _, node := range loop[1:] { total += a[last*Size+node]; last = node }`. -/
def loopCostFrom (a : Mat) : Fin 4 → List (Fin 4) → ℚ
  | _, [] => 0
  | last, n :: ns => a last n + loopCostFrom a n ns

/-- True cost of a recorded loop, computed with the original matrix `a`. -/
def loopCost (a : Mat) : List (Fin 4) → ℚ
  | [] => 0
  | x :: xs => loopCostFrom a x xs

/-- The update `if value < smallest { smallest, cities = value, x }` folded over a list
of candidates: keeps the first strictly-smallest pair.  The minimum-taking
loops of `Search` have this shape once the `math.MaxFloat64` initial
accumulator has absorbed the first (finite) candidate. -/
def minFold (init : ℚ × List (Fin 4)) (l : List (ℚ × List (Fin 4))) : ℚ × List (Fin 4) :=
  l.foldl (fun acc r => if r.1 < acc.1 then r else acc) init

theorem minFold_eq_or_mem (init : ℚ × List (Fin 4)) (l : List (ℚ × List (Fin 4))) :
    minFold init l = init ∨ minFold init l ∈ l := by
  induction l generalizing init with
  | nil => exact Or.inl rfl
  | cons r rs ih =>
    have h := ih (if r.1 < init.1 then r else init)
    rcases h with h | h
    · by_cases hr : r.1 < init.1
      · right
        rw [minFold, List.foldl_cons, ← minFold, h, if_pos hr]
        exact List.mem_cons_self r rs
      · left
        rw [minFold, List.foldl_cons, ← minFold, h, if_neg hr]
    · right
      rw [minFold, List.foldl_cons, ← minFold]
      exact List.mem_cons_of_mem r h

theorem minFold_fst_le_init (init : ℚ × List (Fin 4)) (l : List (ℚ × List (Fin 4))) :
    (minFold init l).1 ≤ init.1 := by
  induction l generalizing init with
  | nil => exact le_refl _
  | cons r rs ih =>
    rw [minFold, List.foldl_cons, ← minFold]
    refine le_trans (ih _) ?_
    by_cases hr : r.1 < init.1
    · rw [if_pos hr]; exact le_of_lt hr
    · rw [if_neg hr]

theorem minFold_fst_le_mem (init : ℚ × List (Fin 4)) (l : List (ℚ × List (Fin 4)))
    (r : ℚ × List (Fin 4)) (hr : r ∈ l) : (minFold init l).1 ≤ r.1 := by
  induction l generalizing init with
  | nil => cases hr
  | cons x xs ih =>
    rw [minFold, List.foldl_cons, ← minFold]
    rcases List.mem_cons.mp hr with h | h
    · subst h
      refine le_trans (minFold_fst_le_init _ _) ?_
      by_cases hx : r.1 < init.1
      · rw [if_pos hx]
      · rw [if_neg hx]; exact le_of_not_lt hx
    · exact ih _ h

/-- Ascending list of indices `j` with `visited[j] = false`; the Go loops
`for j, skip := range visited { if skip { continue } ... }` scan exactly this
list in this order. -/
def unvisited (v : Fin 4 → Bool) : List (Fin 4) :=
  (List.finRange 4).filter (fun j => !(v j))

theorem unvisited_nodup (v : Fin 4 → Bool) : (unvisited v).Nodup :=
  (List.nodup_finRange 4).filter _

theorem unvisited_update (v : Fin 4 → Bool) (k : Fin 4) :
    unvisited (Function.update v k true) = (unvisited v).filter (fun j => j != k) := by
  unfold unvisited
  rw [List.filter_filter]
  apply List.filter_congr
  intro j _
  by_cases h : j = k
  · subst h
    simp
  · simp [Function.update_noteq h, h]

theorem unvisited_update_eq_erase (v : Fin 4 → Bool) (k : Fin 4) :
    unvisited (Function.update v k true) = (unvisited v).erase k := by
  rw [unvisited_update, (unvisited_nodup v).erase_eq_filter]

/-- The recursive closure inside `Search`.  `fuel` bounds the recursion depth
(the Go recursion terminates because every call marks one more city visited;
`Search` supplies fuel `4`, strictly more than the number of cities that can
still be unvisited after the first call marks its start).  At a leaf
(`skipped` in the source) the path closes back to `nodes[0]`; otherwise the
minimum over all continuations to unvisited cities is returned, first-found
ties kept. -/
def searchGo (a : Mat) : Nat → ℚ → Fin 4 → List (Fin 4) → (Fin 4 → Bool) → ℚ × List (Fin 4)
  | 0 => fun sum _ nodes _ => (sum, nodes)
  | fuel + 1 => fun sum i nodes visited =>
    let v := Function.update visited i true
    match unvisited v with
    | [] => (sum + a i (nodes.headD 0), nodes ++ [nodes.headD 0])
    | j :: js =>
      minFold (searchGo a fuel (sum + a i j) j (nodes ++ [j]) v)
        (js.map (fun k => searchGo a fuel (sum + a i k) k (nodes ++ [k]) v))

/-- Function `Search` searches for a solution to the traveling salesman problem:
depth-first search from every start city, keeping the first minimal cost. -/
def Search (a : Mat) : ℚ × List (Fin 4) :=
  minFold (searchGo a 4 0 0 [0] (fun _ => false))
    [searchGo a 4 0 1 [1] (fun _ => false),
     searchGo a 4 0 2 [2] (fun _ => false),
     searchGo a 4 0 3 [3] (fun _ => false)]

/-- The fixed reference matrix from `test()` (debug mode), stored flat as in
the source. -/
def refList : List ℚ := [0, 20, 42, 35, 20, 0, 30, 34, 42, 30, 0, 12, 35, 34, 12, 0]

/-- The reference matrix viewed as a `Mat` (`a[i*Size+j]` layout). -/
def refMatrix : Mat := fun i j => refList.getD (i.val * 4 + j.val) 0

/-- Cost of continuing from `i` through the cities of `l` in order and then
closing the cycle back to `start`. -/
def pathCloseCost (a : Mat) : Fin 4 → Fin 4 → List (Fin 4) → ℚ
  | i, start, [] => a i start
  | i, start, j :: l => a i j + pathCloseCost a j start l

theorem loopCostFrom_close (a : Mat) (s : Fin 4) :
    ∀ (l : List (Fin 4)) (i : Fin 4), loopCostFrom a i (l ++ [s]) = pathCloseCost a i s l := by
  intro l
  induction l with
  | nil => intro i; simp [loopCostFrom, pathCloseCost]
  | cons j js ih => intro i; simp [loopCostFrom, pathCloseCost, ih]

theorem loopCost_close (a : Mat) (i s : Fin 4) (l : List (Fin 4)) :
    loopCost a (i :: (l ++ [s])) = pathCloseCost a i s l := by
  rw [loopCost, loopCostFrom_close]

theorem searchGo_succ (a : Mat) (fuel : Nat) (sum : ℚ) (i : Fin 4) (nodes : List (Fin 4))
    (visited : Fin 4 → Bool) :
    searchGo a (fuel + 1) sum i nodes visited =
      match unvisited (Function.update visited i true) with
      | [] => (sum + a i (nodes.headD 0), nodes ++ [nodes.headD 0])
      | j :: js =>
        minFold
          (searchGo a fuel (sum + a i j) j (nodes ++ [j]) (Function.update visited i true))
          (js.map (fun k =>
            searchGo a fuel (sum + a i k) k (nodes ++ [k]) (Function.update visited i true))) :=
  rfl

/-- Correctness of the recursive search: given enough fuel, it returns the
cost of the cheapest completion through the unvisited cities (closing back to
`nodes[0]`), and that completion's full node list. -/
theorem searchGo_spec (a : Mat) :
    ∀ (fuel : Nat) (sum : ℚ) (i : Fin 4) (nodes : List (Fin 4)) (visited : Fin 4 → Bool),
      nodes ≠ [] →
      (unvisited (Function.update visited i true)).length < fuel →
      ((∃ l, l.Perm (unvisited (Function.update visited i true)) ∧
          searchGo a fuel sum i nodes visited =
            (sum + pathCloseCost a i (nodes.headD 0) l, nodes ++ l ++ [nodes.headD 0])) ∧
       (∀ l, l.Perm (unvisited (Function.update visited i true)) →
          (searchGo a fuel sum i nodes visited).1 ≤
            sum + pathCloseCost a i (nodes.headD 0) l)) := by
  intro fuel
  induction fuel with
  | zero =>
    intro sum i nodes visited _ hfuel
    exact absurd hfuel (Nat.not_lt_zero _)
  | succ fuel ih =>
    intro sum i nodes visited hne hfuel
    have hd : ∀ m : Fin 4, (nodes ++ [m]).headD 0 = nodes.headD 0 := by
      intro m
      cases nodes with
      | nil => exact absurd rfl hne
      | cons x xs => rfl
    cases hjs : unvisited (Function.update visited i true) with
    | nil =>
      rw [searchGo_succ, hjs]
      constructor
      · exact ⟨[], List.Perm.refl [], by simp [pathCloseCost]⟩
      · intro l hl
        rw [List.perm_nil.mp hl]
        simp [pathCloseCost]
    | cons j js =>
      -- every child call satisfies the induction hypothesis
      have hchild : ∀ m : Fin 4, m ∈ j :: js →
          (∃ l, l.Perm ((j :: js).erase m) ∧
            searchGo a fuel (sum + a i m) m (nodes ++ [m]) (Function.update visited i true) =
              (sum + a i m + pathCloseCost a m (nodes.headD 0) l,
               (nodes ++ [m]) ++ l ++ [nodes.headD 0])) ∧
          (∀ l, l.Perm ((j :: js).erase m) →
            (searchGo a fuel (sum + a i m) m (nodes ++ [m])
                (Function.update visited i true)).1 ≤
              sum + a i m + pathCloseCost a m (nodes.headD 0) l) := by
        intro m hm
        have hupd :
            unvisited (Function.update (Function.update visited i true) m true) =
              (j :: js).erase m := by
          rw [unvisited_update_eq_erase, hjs]
        have hlen :
            (unvisited (Function.update (Function.update visited i true) m true)).length
              < fuel := by
          rw [hupd, List.length_erase_of_mem hm]
          rw [hjs] at hfuel
          simp only [List.length_cons] at hfuel ⊢
          omega
        have h := ih (sum + a i m) m (nodes ++ [m]) (Function.update visited i true)
          (by simp) hlen
        rw [hupd, hd m] at h
        exact h
      rw [searchGo_succ, hjs]
      dsimp only
      constructor
      · -- achieved: the returned pair is one of the children's results
        rcases minFold_eq_or_mem
            (searchGo a fuel (sum + a i j) j (nodes ++ [j]) (Function.update visited i true))
            (js.map (fun k =>
              searchGo a fuel (sum + a i k) k (nodes ++ [k])
                (Function.update visited i true))) with hm | hm
        · rcases (hchild j (List.mem_cons_self _ _)).1 with ⟨l, hlp, hleq⟩
          rw [List.erase_cons_head] at hlp
          refine ⟨j :: l, hlp.cons j, ?_⟩
          rw [hm, hleq, pathCloseCost]
          refine Prod.ext ?_ ?_
          · simp [add_assoc]
          · simp
        · rcases List.mem_map.mp hm with ⟨k, hk, hkeq⟩
          have hmem_k : k ∈ j :: js := List.mem_cons_of_mem _ hk
          rcases (hchild k hmem_k).1 with ⟨l, hlp, hleq⟩
          refine ⟨k :: l, List.cons_perm_iff_perm_erase.mpr ⟨hmem_k, hlp⟩, ?_⟩
          rw [← hkeq, hleq, pathCloseCost]
          refine Prod.ext ?_ ?_
          · simp [add_assoc]
          · simp
      · -- lower bound over every completion
        intro l hl
        cases l with
        | nil =>
          have := hl.length_eq
          simp at this
        | cons m l' =>
          have hml : m ∈ j :: js ∧ l'.Perm ((j :: js).erase m) :=
            List.cons_perm_iff_perm_erase.mp hl
          have hbound := (hchild m hml.1).2 l' hml.2
          have hstep :
              (minFold
                (searchGo a fuel (sum + a i j) j (nodes ++ [j])
                  (Function.update visited i true))
                (js.map (fun k =>
                  searchGo a fuel (sum + a i k) k (nodes ++ [k])
                    (Function.update visited i true)))).1 ≤
              (searchGo a fuel (sum + a i m) m (nodes ++ [m])
                (Function.update visited i true)).1 := by
            rcases List.mem_cons.mp hml.1 with h | h
            · subst h
              exact minFold_fst_le_init _ _
            · exact minFold_fst_le_mem _ _ _ (List.mem_map.mpr ⟨m, h, rfl⟩)
          refine le_trans hstep (le_trans hbound ?_)
          rw [pathCloseCost, ← add_assoc]

/-- The Tour invariant of the spec's data model: length `N+1 = 5`, closed
(`tour[0] == tour[N]`), and the first `N` entries are exactly `{0..N-1}`,
each appearing once. -/
def ValidTour (t : List (Fin 4)) : Prop :=
  t.length = 5 ∧ t.headD 0 = t.getD 4 0 ∧ (t.take 4).Perm (List.finRange 4)

instance (t : List (Fin 4)) : Decidable (ValidTour t) := by
  unfold ValidTour
  infer_instance

theorem unvisited_bot : unvisited (fun _ => false) = List.finRange 4 := by
  unfold unvisited
  simp

theorem unvisited_start (i : Fin 4) :
    unvisited (Function.update (fun _ => false) i true) = (List.finRange 4).erase i := by
  rw [unvisited_update_eq_erase, unvisited_bot]

theorem length_erase_finRange (i : Fin 4) : ((List.finRange 4).erase i).length = 3 := by
  rw [List.length_erase_of_mem (List.mem_finRange i), List.length_finRange]

theorem start_tour_valid (i : Fin 4) (l : List (Fin 4))
    (hl : l.Perm ((List.finRange 4).erase i)) : ValidTour (i :: (l ++ [i])) := by
  have hlen : l.length = 3 := by rw [hl.length_eq, length_erase_finRange]
  obtain ⟨x, y, z, rfl⟩ := List.length_eq_three.mp hlen
  refine ⟨rfl, rfl, ?_⟩
  exact (hl.cons i).trans (List.perm_cons_erase (List.mem_finRange i)).symm

theorem validTour_decomp (t : List (Fin 4)) (h : ValidTour t) :
    ∃ i l, l.Perm ((List.finRange 4).erase i) ∧ t = i :: (l ++ [i]) := by
  obtain ⟨hlen, hclose, hperm⟩ := h
  rcases t with _ | ⟨b0, t⟩
  · simp at hlen
  rcases t with _ | ⟨b1, t⟩
  · simp at hlen
  rcases t with _ | ⟨b2, t⟩
  · simp at hlen
  rcases t with _ | ⟨b3, t⟩
  · simp at hlen
  rcases t with _ | ⟨b4, t⟩
  · simp at hlen
  rcases t with _ | ⟨b5, t⟩
  · have hmem : b0 ∈ List.finRange 4 := List.mem_finRange b0
    have h1 : (b0 :: [b1, b2, b3]).Perm (List.finRange 4) := hperm
    have h2 := List.cons_perm_iff_perm_erase.mp h1
    refine ⟨b0, [b1, b2, b3], h2.2, ?_⟩
    have : b0 = b4 := hclose
    rw [← this]
    rfl
  · simp at hlen

/-- The depth-first search from start city `i`: it returns the cost and node
list of some valid tour, and its cost undercuts every completion from `i`. -/
theorem searchStart_spec (a : Mat) (i : Fin 4) :
    (∃ t, ValidTour t ∧ searchGo a 4 0 i [i] (fun _ => false) = (loopCost a t, t)) ∧
    (∀ l, l.Perm ((List.finRange 4).erase i) →
      (searchGo a 4 0 i [i] (fun _ => false)).1 ≤ pathCloseCost a i i l) := by
  have hfuel : (unvisited (Function.update (fun _ => false) i true)).length < 4 := by
    rw [unvisited_start, length_erase_finRange]
    omega
  have h := searchGo_spec a 4 0 i [i] (fun _ => false) (by simp) hfuel
  rw [unvisited_start] at h
  constructor
  · rcases h.1 with ⟨l, hlp, heq⟩
    refine ⟨i :: (l ++ [i]), start_tour_valid i l hlp, ?_⟩
    rw [heq, loopCost_close]
    refine Prod.ext ?_ ?_
    · show (0 : ℚ) + pathCloseCost a i ([i].headD 0) l = pathCloseCost a i i l
      rw [zero_add]
      rfl
    · show [i] ++ l ++ [([i].headD 0)] = i :: (l ++ [i])
      simp
  · intro l hlp
    have := h.2 l hlp
    rw [zero_add] at this
    exact this

theorem Search_le_start (a : Mat) (i : Fin 4) :
    (Search a).1 ≤ (searchGo a 4 0 i [i] (fun _ => false)).1 := by
  fin_cases i
  · exact minFold_fst_le_init _ _
  · exact minFold_fst_le_mem _ _ _ (List.mem_cons_self _ _)
  · exact minFold_fst_le_mem _ _ _ (List.mem_cons_of_mem _ (List.mem_cons_self _ _))
  · exact minFold_fst_le_mem _ _ _
      (List.mem_cons_of_mem _ (List.mem_cons_of_mem _ (List.mem_cons_self _ _)))

/-- Function `Search` returns the cost-and-tour pair of some valid tour. -/
theorem Search_achieved (a : Mat) : ∃ t, ValidTour t ∧ Search a = (loopCost a t, t) := by
  rcases minFold_eq_or_mem (searchGo a 4 0 0 [0] (fun _ => false))
      [searchGo a 4 0 1 [1] (fun _ => false),
       searchGo a 4 0 2 [2] (fun _ => false),
       searchGo a 4 0 3 [3] (fun _ => false)] with hm | hm
  · rcases (searchStart_spec a 0).1 with ⟨t, ht, heq⟩
    exact ⟨t, ht, by rw [Search, hm, heq]⟩
  · rcases List.mem_cons.mp hm with h | hm
    · rcases (searchStart_spec a 1).1 with ⟨t, ht, heq⟩
      exact ⟨t, ht, by rw [Search, h, heq]⟩
    rcases List.mem_cons.mp hm with h | hm
    · rcases (searchStart_spec a 2).1 with ⟨t, ht, heq⟩
      exact ⟨t, ht, by rw [Search, h, heq]⟩
    rcases List.mem_cons.mp hm with h | hm
    · rcases (searchStart_spec a 3).1 with ⟨t, ht, heq⟩
      exact ⟨t, ht, by rw [Search, h, heq]⟩
    · cases hm

/-- The cost `Search` returns is a lower bound on the cost of every valid tour. -/
theorem Search_le (a : Mat) (t : List (Fin 4)) (ht : ValidTour t) :
    (Search a).1 ≤ loopCost a t := by
  obtain ⟨i, l, hlp, rfl⟩ := validTour_decomp t ht
  rw [loopCost_close]
  exact le_trans (Search_le_start a i) ((searchStart_spec a i).2 l hlp)

/-! ### The shared greedy tour builder -/

/-- Candidates scanned by the inner selection loop: the `j` with
`!(j == state || visited[j])`, in ascending order. -/
def selectCands (state : Fin 4) (v : Fin 4 → Bool) : List (Fin 4) :=
  (List.finRange 4).filter (fun j => !(j == state || v j))

/-- The running `min, k` accumulator of the selection scan
(`if v := distances[state*Size+j]; v < min { min, k = v, j }`); `none` models
the `math.MaxFloat64` initial value of `min` (`k` starts at `0`). -/
def selGo (f : Fin 4 → ℚ) : Option ℚ × Fin 4 → List (Fin 4) → Option ℚ × Fin 4
  | acc, [] => acc
  | (none, _), j :: rest => selGo f (some (f j), j) rest
  | (some m, k), j :: rest =>
    if f j < m then selGo f (some (f j), j) rest else selGo f (some m, k) rest

/-- One step of the greedy nearest-neighbor selection from `state`. -/
def selectNext (d : Mat) (state : Fin 4) (v : Fin 4 → Bool) : Fin 4 :=
  (selGo (fun j => d state j) (none, 0) (selectCands state v)).2

theorem selGo_snd_mem (f : Fin 4 → ℚ) :
    ∀ (l : List (Fin 4)) (acc : Option ℚ × Fin 4),
      (selGo f acc l).2 = acc.2 ∨ (selGo f acc l).2 ∈ l := by
  intro l
  induction l with
  | nil =>
    intro acc
    obtain ⟨m, k⟩ := acc
    cases m with
    | none => exact Or.inl rfl
    | some m => exact Or.inl rfl
  | cons j rest ih =>
    intro acc
    obtain ⟨m, k⟩ := acc
    cases m with
    | none =>
      rcases ih (some (f j), j) with h | h
      · right
        rw [show selGo f (none, k) (j :: rest) = selGo f (some (f j), j) rest from rfl, h]
        exact List.mem_cons_self _ _
      · right
        exact List.mem_cons_of_mem _ h
    | some m =>
      by_cases hj : f j < m
      · rcases ih (some (f j), j) with h | h
        · right
          rw [show selGo f (some m, k) (j :: rest) = selGo f (some (f j), j) rest from
              by rw [selGo, if_pos hj], h]
          exact List.mem_cons_self _ _
        · right
          rw [show selGo f (some m, k) (j :: rest) = selGo f (some (f j), j) rest from
              by rw [selGo, if_pos hj]]
          exact List.mem_cons_of_mem _ h
      · rcases ih (some m, k) with h | h
        · left
          rw [show selGo f (some m, k) (j :: rest) = selGo f (some m, k) rest from
              by rw [selGo, if_neg hj], h]
        · right
          rw [show selGo f (some m, k) (j :: rest) = selGo f (some m, k) rest from
              by rw [selGo, if_neg hj]]
          exact List.mem_cons_of_mem _ h

theorem selectNext_mem (d : Mat) (state : Fin 4) (v : Fin 4 → Bool)
    (h : selectCands state v ≠ []) : selectNext d state v ∈ selectCands state v := by
  unfold selectNext
  cases hc : selectCands state v with
  | nil => exact absurd hc h
  | cons j rest =>
    rw [show selGo (fun j => d state j) (none, 0) (j :: rest) =
        selGo (fun j => d state j) (some (d state j), j) rest from rfl]
    rcases selGo_snd_mem (fun j => d state j) rest (some (d state j), j) with hm | hm
    · rw [hm]
      exact List.mem_cons_self _ _
    · exact List.mem_cons_of_mem _ hm

theorem selectCands_iff (state : Fin 4) (v : Fin 4 → Bool) (j : Fin 4) :
    j ∈ selectCands state v ↔ j ≠ state ∧ v j = false := by
  unfold selectCands
  simp [List.mem_filter]

theorem selectCands_of_visited (state : Fin 4) (v : Fin 4 → Bool) (h : v state = true) :
    selectCands state v = unvisited v := by
  unfold selectCands unvisited
  apply List.filter_congr
  intro j _
  by_cases hj : j = state
  · subst hj
    simp [h]
  · simp [hj]

/-- The `Size-1` selection steps followed by an unconditional close:
the loop form used by `NearestNeighbor` and `Eigen`. -/
def goA (d : Mat) : Nat → Fin 4 → (Fin 4 → Bool) → List (Fin 4) → List (Fin 4)
  | 0, _, _, loop => loop ++ [loop.headD 0]
  | n + 1, state, v, loop =>
    goA d n (selectNext d state v)
      (Function.update v (selectNext d state v) true) (loop ++ [selectNext d state v])

/-- Up to `Size` selection steps with an early exit (`done`) when no
unvisited city remains: the loop form used by `Neural` and `Neural2`.
If the step budget runs out without `done` (impossible from the real entry
states), the loop is left unclosed, exactly as in the source. -/
def goB (d : Mat) : Nat → Fin 4 → (Fin 4 → Bool) → List (Fin 4) → List (Fin 4)
  | 0, _, _, loop => loop
  | n + 1, state, v, loop =>
    if selectCands state v = [] then loop ++ [loop.headD 0]
    else
      goB d n (selectNext d state v)
        (Function.update v (selectNext d state v) true) (loop ++ [selectNext d state v])

/-- The full greedy loop from `offset` in the `N-1 steps then close` form. -/
def greedyLoopA (d : Mat) (offset : Fin 4) : List (Fin 4) :=
  goA d 3 offset (Function.update (fun _ => false) offset true) [offset]

/-- The full greedy loop from `offset` in the `N steps with early exit` form. -/
def greedyLoopB (d : Mat) (offset : Fin 4) : List (Fin 4) :=
  goB d 4 offset (Function.update (fun _ => false) offset true) [offset]

/-- The two loop forms agree step by step whenever the state is visited and
the fuel of the `A` form equals the number of unvisited cities. -/
theorem goA_eq_goB (d : Mat) :
    ∀ (n : Nat) (state : Fin 4) (v : Fin 4 → Bool) (loop : List (Fin 4)),
      v state = true → (unvisited v).length = n →
      goA d n state v loop = goB d (n + 1) state v loop := by
  intro n
  induction n with
  | zero =>
    intro state v loop hst hlen
    have hnil : unvisited v = [] := List.length_eq_zero.mp hlen
    have hc : selectCands state v = [] := by rw [selectCands_of_visited state v hst, hnil]
    rw [goA, goB, if_pos hc]
  | succ n ih =>
    intro state v loop hst hlen
    have hc : selectCands state v = unvisited v := selectCands_of_visited state v hst
    have hcne : selectCands state v ≠ [] := by
      rw [hc]
      intro h
      rw [h] at hlen
      simp at hlen
    have hmem := selectNext_mem d state v hcne
    rw [hc] at hmem
    have hk : v (selectNext d state v) = false := by
      rw [← hc] at hmem
      exact ((selectCands_iff state v _).mp hmem).2
    rw [goA, goB, if_neg hcne]
    apply ih
    · exact Function.update_same _ _ _
    · rw [unvisited_update_eq_erase, List.length_erase_of_mem hmem, hlen]
      omega

/-- Closing any permutation of all four cities yields a valid tour. -/
theorem close_tour_valid (l : List (Fin 4)) (hp : l.Perm (List.finRange 4)) :
    ValidTour (l ++ [l.headD 0]) := by
  have hlen : l.length = 4 := hp.length_eq
  rcases l with _ | ⟨x, l⟩
  · simp at hlen
  rcases l with _ | ⟨y, l⟩
  · simp at hlen
  rcases l with _ | ⟨z, l⟩
  · simp at hlen
  rcases l with _ | ⟨w, l⟩
  · simp at hlen
  rcases l with _ | ⟨u, l⟩
  · exact ⟨rfl, rfl, hp⟩
  · simp at hlen

theorem nodup_four_perm (l : List (Fin 4)) (hn : l.Nodup) (hl : l.length = 4) :
    l.Perm (List.finRange 4) := by
  have hsp : l.Subperm (List.finRange 4) := hn.subperm (fun x _ => List.mem_finRange x)
  exact hsp.perm_of_length_le (by rw [hl, List.length_finRange])

/-- The `A` loop form always extends its accumulated path by distinct fresh
cities and closes back to the head. -/
theorem goA_shape (d : Mat) :
    ∀ (n : Nat) (state : Fin 4) (v : Fin 4 → Bool) (loop : List (Fin 4)),
      v state = true → (unvisited v).length = n → (∀ x, v x = true ↔ x ∈ loop) →
      loop.Nodup → loop.length + n = 4 →
      ∃ ext, goA d n state v loop = (loop ++ ext) ++ [loop.headD 0] ∧
        (loop ++ ext).Nodup ∧ (loop ++ ext).length = 4 := by
  intro n
  induction n with
  | zero =>
    intro state v loop _ _ _ hnd hlen
    refine ⟨[], ?_, ?_, ?_⟩
    · rw [goA]
      simp
    · simpa using hnd
    · simpa using hlen
  | succ n ih =>
    intro state v loop hst hlen hmm hnd hcount
    have hc : selectCands state v = unvisited v := selectCands_of_visited state v hst
    have hcne : selectCands state v ≠ [] := by
      rw [hc]
      intro h
      rw [h] at hlen
      simp at hlen
    have hmem := selectNext_mem d state v hcne
    rw [hc] at hmem
    set k := selectNext d state v with hkdef
    have hkv : v k = false := by
      rw [← hc] at hmem
      exact ((selectCands_iff state v _).mp hmem).2
    have hknotin : k ∉ loop := fun h => by
      rw [(hmm k).mpr h] at hkv
      cases hkv
    have hloopne : loop ≠ [] := by
      intro h
      have hmemst := (hmm state).mp hst
      rw [h] at hmemst
      cases hmemst
    have hhead : (loop ++ [k]).headD 0 = loop.headD 0 := by
      cases loop with
      | nil => exact absurd rfl hloopne
      | cons x xs => rfl
    have hstep := ih k (Function.update v k true) (loop ++ [k])
      (Function.update_same _ _ _)
      (by
        rw [unvisited_update_eq_erase, List.length_erase_of_mem hmem, hlen]
        omega)
      (by
        intro x
        by_cases hx : x = k
        · subst hx
          simp [Function.update_same]
        · rw [Function.update_noteq hx]
          rw [hmm x]
          simp [hx])
      (by
        rw [List.nodup_append]
        refine ⟨hnd, List.nodup_singleton k, ?_⟩
        intro x hx hk
        rw [List.mem_singleton] at hk
        subst hk
        exact hknotin hx)
      (by
        simp only [List.length_append, List.length_singleton]
        omega)
    rcases hstep with ⟨ext, heq, hnd2, hlen2⟩
    refine ⟨k :: ext, ?_, ?_, ?_⟩
    · rw [goA, ← hkdef, heq, hhead]
      simp
    · simpa using hnd2
    · simpa using hlen2

/-- Every loop the `A` form builds from a start offset is a valid tour,
whatever affinity matrix drives the selection. -/
theorem greedyLoopA_valid (d : Mat) (offset : Fin 4) : ValidTour (greedyLoopA d offset) := by
  have h := goA_shape d 3 offset (Function.update (fun _ => false) offset true) [offset]
    (Function.update_same _ _ _)
    (by rw [unvisited_start, length_erase_finRange])
    (by
      intro x
      by_cases hx : x = offset
      · subst hx
        simp [Function.update_same]
      · rw [Function.update_noteq hx]
        simp [hx])
    (List.nodup_singleton offset)
    (by simp)
  rcases h with ⟨ext, heq, hnd, hlen⟩
  rw [greedyLoopA, heq]
  have hperm := nodup_four_perm _ hnd hlen
  have hhd : ([offset] ++ ext).headD 0 = ([offset] ++ ext).headD 0 := rfl
  have := close_tour_valid ([offset] ++ ext) hperm
  simpa using this

/-- The two greedy loop forms coincide on every affinity matrix and offset. -/
theorem greedyLoopA_eq_greedyLoopB (d : Mat) (offset : Fin 4) :
    greedyLoopA d offset = greedyLoopB d offset := by
  unfold greedyLoopA greedyLoopB
  exact goA_eq_goB d 3 offset _ [offset]
    (Function.update_same _ _ _)
    (by rw [unvisited_start, length_erase_finRange])

theorem greedyLoopB_valid (d : Mat) (offset : Fin 4) : ValidTour (greedyLoopB d offset) := by
  rw [← greedyLoopA_eq_greedyLoopB]
  exact greedyLoopA_valid d offset

/-! ### Selecting the best candidate loop over all offsets -/

/-- The guard `loop[0] == loop[Size]` on candidate loops. -/
def isClosed (l : List (Fin 4)) : Bool := l.headD 0 == l.getD 4 0

/-- The accumulator loop `if total < minTotal && loop[0] == loop[Size] { ... }`
over a list of `(total, loop)` candidates; `none` models the initial
`(math.MaxFloat64, []int{})` accumulator, which any finite closed candidate
replaces. -/
def chooseBest : Option (ℚ × List (Fin 4)) → List (ℚ × List (Fin 4)) →
    Option (ℚ × List (Fin 4))
  | acc, [] => acc
  | none, c :: rest =>
    if isClosed c.2 then chooseBest (some c) rest else chooseBest none rest
  | some b, c :: rest =>
    if c.1 < b.1 ∧ isClosed c.2 = true then chooseBest (some c) rest
    else chooseBest (some b) rest

theorem chooseBest_mem :
    ∀ (l : List (ℚ × List (Fin 4))) (acc : Option (ℚ × List (Fin 4))) (r : ℚ × List (Fin 4)),
      chooseBest acc l = some r → acc = some r ∨ r ∈ l := by
  intro l
  induction l with
  | nil =>
    intro acc r h
    cases acc with
    | none => cases h
    | some b => exact Or.inl h
  | cons c rest ih =>
    intro acc r h
    cases acc with
    | none =>
      by_cases hcl : isClosed c.2
      · rw [chooseBest, if_pos hcl] at h
        rcases ih (some c) r h with h1 | h1
        · right
          rw [Option.some_inj.mp h1]
          exact List.mem_cons_self _ _
        · exact Or.inr (List.mem_cons_of_mem _ h1)
      · rw [chooseBest, if_neg hcl] at h
        rcases ih none r h with h1 | h1
        · cases h1
        · exact Or.inr (List.mem_cons_of_mem _ h1)
    | some b =>
      by_cases hcl : c.1 < b.1 ∧ isClosed c.2 = true
      · rw [chooseBest, if_pos hcl] at h
        rcases ih (some c) r h with h1 | h1
        · right
          rw [Option.some_inj.mp h1]
          exact List.mem_cons_self _ _
        · exact Or.inr (List.mem_cons_of_mem _ h1)
      · rw [chooseBest, if_neg hcl] at h
        rcases ih (some b) r h with h1 | h1
        · exact Or.inl h1
        · exact Or.inr (List.mem_cons_of_mem _ h1)

theorem chooseBest_le :
    ∀ (l : List (ℚ × List (Fin 4))) (acc : Option (ℚ × List (Fin 4))) (r : ℚ × List (Fin 4)),
      chooseBest acc l = some r →
      (∀ b, acc = some b → r.1 ≤ b.1) ∧
      (∀ c ∈ l, isClosed c.2 = true → r.1 ≤ c.1) := by
  intro l
  induction l with
  | nil =>
    intro acc r h
    refine ⟨?_, ?_⟩
    · intro b hb
      rw [hb] at h
      cases acc with
      | none => cases hb
      | some b' =>
        rw [Option.some_inj.mp h]
    · intro c hc
      cases hc
  | cons c rest ih =>
    intro acc r h
    cases acc with
    | none =>
      by_cases hcl : isClosed c.2
      · rw [chooseBest, if_pos hcl] at h
        have h1 := ih (some c) r h
        refine ⟨(fun b hb => nomatch hb), ?_⟩
        intro c' hc' hcl'
        rcases List.mem_cons.mp hc' with h2 | h2
        · subst h2
          exact h1.1 c' rfl
        · exact h1.2 c' h2 hcl'
      · rw [chooseBest, if_neg hcl] at h
        have h1 := ih none r h
        refine ⟨(fun b hb => nomatch hb), ?_⟩
        intro c' hc' hcl'
        rcases List.mem_cons.mp hc' with h2 | h2
        · subst h2
          exact absurd hcl' hcl
        · exact h1.2 c' h2 hcl'
    | some b =>
      by_cases hcl : c.1 < b.1 ∧ isClosed c.2 = true
      · rw [chooseBest, if_pos hcl] at h
        have h1 := ih (some c) r h
        have hrc : r.1 ≤ c.1 := h1.1 c rfl
        refine ⟨?_, ?_⟩
        · intro b' hb'
          rw [Option.some_inj.mp hb'.symm]
          exact le_trans hrc (le_of_lt hcl.1)
        · intro c' hc' hcl'
          rcases List.mem_cons.mp hc' with h2 | h2
          · subst h2
            exact hrc
          · exact h1.2 c' h2 hcl'
      · rw [chooseBest, if_neg hcl] at h
        have h1 := ih (some b) r h
        have hrb : r.1 ≤ b.1 := h1.1 b rfl
        refine ⟨?_, ?_⟩
        · intro b' hb'
          rw [Option.some_inj.mp hb'.symm]
          exact hrb
        · intro c' hc' hcl'
          rcases List.mem_cons.mp hc' with h2 | h2
          · subst h2
            have hbc : b.1 ≤ c'.1 := by
              by_contra hlt
              exact hcl ⟨lt_of_not_le hlt, hcl'⟩
            exact le_trans hrb hbc
          · exact h1.2 c' h2 hcl'

theorem chooseBest_isSome :
    ∀ (l : List (ℚ × List (Fin 4))) (b : ℚ × List (Fin 4)),
      ∃ r, chooseBest (some b) l = some r := by
  intro l
  induction l with
  | nil => intro b; exact ⟨b, rfl⟩
  | cons c rest ih =>
    intro b
    by_cases hcl : c.1 < b.1 ∧ isClosed c.2 = true
    · rw [chooseBest, if_pos hcl]
      exact ih c
    · rw [chooseBest, if_neg hcl]
      exact ih b

theorem chooseBest_none_isSome :
    ∀ (l : List (ℚ × List (Fin 4))), (∃ c ∈ l, isClosed c.2 = true) →
      ∃ r, chooseBest none l = some r := by
  intro l
  induction l with
  | nil =>
    intro h
    rcases h with ⟨c, hc, _⟩
    cases hc
  | cons c rest ih =>
    intro h
    by_cases hcl : isClosed c.2
    · rw [chooseBest, if_pos hcl]
      exact chooseBest_isSome rest c
    · rw [chooseBest, if_neg hcl]
      apply ih
      rcases h with ⟨c', hc', hcl'⟩
      rcases List.mem_cons.mp hc' with h2 | h2
      · subst h2
        exact absurd hcl' hcl
      · exact ⟨c', h2, hcl'⟩

theorem validTour_isClosed {t : List (Fin 4)} (h : ValidTour t) : isClosed t = true := by
  rw [isClosed, beq_iff_eq]
  exact h.2.1

/-! ### The heuristic solvers (tour-construction phases) -/

/-- Candidate of the `A`-form greedy builder from one offset: the loop and its
true cost (the source accumulates `total += a[last*Size+node]` along the loop,
which is exactly `loopCost`). -/
def candA (d a : Mat) (offset : Fin 4) : ℚ × List (Fin 4) :=
  (loopCost a (greedyLoopA d offset), greedyLoopA d offset)

/-- Candidate of the `B`-form greedy builder from one offset. -/
def candB (d a : Mat) (offset : Fin 4) : ℚ × List (Fin 4) :=
  (loopCost a (greedyLoopB d offset), greedyLoopB d offset)

/-- Function `NearestNeighbor` uses nearest neighbor to solve the traveling salesman
problem: the `A`-form greedy builder driven by the true distances themselves
(`distances := a`).  The `.getD (0, [])` default is the unreachable
`(math.MaxFloat64, []int{})` accumulator (unreachable because every candidate
loop is closed, proved below). -/
def NearestNeighbor (a : Mat) : ℚ × List (Fin 4) :=
  (chooseBest none ((List.finRange 4).map (candA a a))).getD (0, [])

/-- The tour-construction phase of `Eigen`: the `A`-form greedy builder driven
first by the right-eigenvector spectral distances, then by the
left-eigenvector spectral distances, one running minimum across all eight
candidates.  The two derived matrices are parameters: they are produced by
the external eigendecomposition and enter the loop only through order
comparisons. -/
def eigenSolve (distances leftDistances a : Mat) : ℚ × List (Fin 4) :=
  (chooseBest none
    ((List.finRange 4).map (candA distances a) ++
     (List.finRange 4).map (candA leftDistances a))).getD (0, [])

/-- The tour-construction phase of `Neural2` (and of `Neural`): the `B`-form
greedy builder driven by the learned embedding distances `d`. -/
def neural2Solve (d a : Mat) : ℚ × List (Fin 4) :=
  (chooseBest none ((List.finRange 4).map (candB d a))).getD (0, [])

/-- Any solver of the `chooseBest`-over-valid-candidates shape returns one of
its candidates, hence a valid tour with its true recomputed cost, no more
expensive than any candidate. -/
theorem chooseBest_solver_spec (a : Mat) (cands : List (ℚ × List (Fin 4)))
    (hvalid : ∀ c ∈ cands, ValidTour c.2 ∧ c.1 = loopCost a c.2)
    (hne : cands ≠ []) :
    ∃ r, chooseBest none cands = some r ∧ r ∈ cands ∧ ValidTour r.2 ∧
      r.1 = loopCost a r.2 ∧ ∀ c ∈ cands, r.1 ≤ c.1 := by
  rcases cands with _ | ⟨c, rest⟩
  · exact absurd rfl hne
  have hc := hvalid c (List.mem_cons_self _ _)
  obtain ⟨r, hr⟩ := chooseBest_none_isSome (c :: rest)
    ⟨c, List.mem_cons_self _ _, validTour_isClosed hc.1⟩
  rcases chooseBest_mem _ _ _ hr with h1 | h1
  · cases h1
  · have hrv := hvalid r h1
    refine ⟨r, hr, h1, hrv.1, hrv.2, ?_⟩
    intro c' hc'
    exact (chooseBest_le _ _ _ hr).2 c' hc' (validTour_isClosed (hvalid c' hc').1)

theorem candA_valid (d a : Mat) (offset : Fin 4) :
    ValidTour (candA d a offset).2 ∧ (candA d a offset).1 = loopCost a (candA d a offset).2 :=
  ⟨greedyLoopA_valid d offset, rfl⟩

theorem candB_valid (d a : Mat) (offset : Fin 4) :
    ValidTour (candB d a offset).2 ∧ (candB d a offset).1 = loopCost a (candB d a offset).2 :=
  ⟨greedyLoopB_valid d offset, rfl⟩

/-- Specification of `NearestNeighbor`'s result. -/
theorem NearestNeighbor_spec (a : Mat) :
    ValidTour (NearestNeighbor a).2 ∧
    (NearestNeighbor a).1 = loopCost a (NearestNeighbor a).2 := by
  obtain ⟨r, hr, _, hv, hcost, _⟩ := chooseBest_solver_spec a
    ((List.finRange 4).map (candA a a))
    (by
      intro c hc
      rcases List.mem_map.mp hc with ⟨o, _, rfl⟩
      exact candA_valid a a o)
    (by simp [List.finRange])
  rw [NearestNeighbor, hr]
  exact ⟨hv, hcost⟩

/-- Specification of `Eigen`'s result, for any derived distance matrices. -/
theorem eigenSolve_spec (distances leftDistances a : Mat) :
    ValidTour (eigenSolve distances leftDistances a).2 ∧
    (eigenSolve distances leftDistances a).1 =
      loopCost a (eigenSolve distances leftDistances a).2 := by
  obtain ⟨r, hr, _, hv, hcost, _⟩ := chooseBest_solver_spec a
    ((List.finRange 4).map (candA distances a) ++
     (List.finRange 4).map (candA leftDistances a))
    (by
      intro c hc
      rcases List.mem_append.mp hc with h | h
      · rcases List.mem_map.mp h with ⟨o, _, rfl⟩
        exact candA_valid distances a o
      · rcases List.mem_map.mp h with ⟨o, _, rfl⟩
        exact candA_valid leftDistances a o)
    (by simp [List.finRange])
  rw [eigenSolve, hr]
  exact ⟨hv, hcost⟩

/-- Specification of `Neural2`'s result, for any learned distance matrix. -/
theorem neural2Solve_spec (d a : Mat) :
    ValidTour (neural2Solve d a).2 ∧
    (neural2Solve d a).1 = loopCost a (neural2Solve d a).2 := by
  obtain ⟨r, hr, _, hv, hcost, _⟩ := chooseBest_solver_spec a
    ((List.finRange 4).map (candB d a))
    (by
      intro c hc
      rcases List.mem_map.mp hc with ⟨o, _, rfl⟩
      exact candB_valid d a o)
    (by simp [List.finRange])
  rw [neural2Solve, hr]
  exact ⟨hv, hcost⟩

/-! ### PageRank -/

/-- The list `pageNodes`: the highest-ranked city (`cities[len(cities)-1].ID` after the
ascending sort) followed by all cities in ascending rank order.  The
rank-sorted id list is a parameter: the scores come from the external
`pagerank` library, and only the resulting id order matters to the embedded
code. -/
def pageTour (cities : List (Fin 4)) : List (Fin 4) :=
  cities.getLastD 0 :: cities

/-- Function `PageRank` uses page rank to solve the traveling salesman problem; the
returned total is accumulated over the true matrix along `pageNodes`. -/
def PageRank (cities : List (Fin 4)) (a : Mat) : ℚ × List (Fin 4) :=
  (loopCost a (pageTour cities), pageTour cities)

theorem pageTour_valid (cities : List (Fin 4)) (hp : cities.Perm (List.finRange 4)) :
    ValidTour (pageTour cities) := by
  have hlen : cities.length = 4 := by rw [hp.length_eq, List.length_finRange]
  rcases cities with _ | ⟨c0, cs⟩
  · simp at hlen
  rcases cs with _ | ⟨c1, cs⟩
  · simp at hlen
  rcases cs with _ | ⟨c2, cs⟩
  · simp at hlen
  rcases cs with _ | ⟨c3, cs⟩
  · simp at hlen
  rcases cs with _ | ⟨c4, cs⟩
  · refine ⟨rfl, rfl, ?_⟩
    show ([c3] ++ [c0, c1, c2]).Perm (List.finRange 4)
    exact (List.perm_append_comm).trans hp
  · simp at hlen

/-! ### Eigen2 -/

/-- The inner scan of `Eigen2`: walk a suffix of the rank-sorted node list,
collecting first occurrences of ids, stopping once `Size` distinct ids have
been seen. -/
def collectGo : List (Fin 4) → List (Fin 4) → List (Fin 4)
  | seen, [] => seen
  | seen, n :: rest =>
    if seen.length = 4 then seen
    else if n ∈ seen then collectGo seen rest
    else collectGo (seen ++ [n]) rest

/-- The closed candidate loop `l = append(l, l[0])` built from one suffix. -/
def eigen2Cand (suf : List (Fin 4)) : List (Fin 4) :=
  collectGo [] suf ++ [(collectGo [] suf).headD 0]

/-- The outer loop of `Eigen2` over suffixes of the sorted node list, with its
early `break` when a suffix fails to produce all `Size` ids, and the running
`if t < total` minimum (`none` models the `math.MaxFloat64` start). -/
def eigen2Go (a : Mat) :
    List (List (Fin 4)) → Option (ℚ × List (Fin 4)) → Option (ℚ × List (Fin 4))
  | [], acc => acc
  | suf :: rest, none =>
    if (collectGo [] suf).length < 4 then none
    else eigen2Go a rest (some (loopCost a (eigen2Cand suf), eigen2Cand suf))
  | suf :: rest, some b =>
    if (collectGo [] suf).length < 4 then some b
    else
      if loopCost a (eigen2Cand suf) < b.1 then
        eigen2Go a rest (some (loopCost a (eigen2Cand suf), eigen2Cand suf))
      else eigen2Go a rest (some b)

/-- Function `Eigen2` uses eigen vectors to solve the traveling salesman problem; the
sorted list of node ids (32 entries in the source, each id appearing 8 times)
is a parameter, since the ranks that order it come from the external
eigendecomposition.  The `.getD (0, [])` default is the function's
`(math.MaxFloat64, nil)` fallthrough, unreachable when every id occurs. -/
def Eigen2 (ns : List (Fin 4)) (a : Mat) : ℚ × List (Fin 4) :=
  (eigen2Go a ((List.range ns.length).map (fun i => ns.drop i)) none).getD (0, [])

theorem collectGo_spec :
    ∀ (suf seen : List (Fin 4)), seen.Nodup → seen.length ≤ 4 →
      ∃ ext, collectGo seen suf = seen ++ ext ∧ (seen ++ ext).Nodup ∧
        (seen ++ ext).length ≤ 4 ∧
        ((seen ++ ext).length = 4 ∨ ∀ x ∈ suf, x ∈ seen ++ ext) := by
  intro suf
  induction suf with
  | nil =>
    intro seen hnd hle
    refine ⟨[], by rw [collectGo, List.append_nil], ?_, ?_, Or.inr ?_⟩
    · simpa using hnd
    · simpa using hle
    · intro x hx
      cases hx
  | cons n rest ih =>
    intro seen hnd hle
    by_cases h4 : seen.length = 4
    · refine ⟨[], by rw [collectGo, if_pos h4, List.append_nil], ?_, ?_, Or.inl ?_⟩
      · simpa using hnd
      · simpa using hle
      · simpa using h4
    · by_cases hmem : n ∈ seen
      · obtain ⟨ext, heq, hnd2, hle2, hor⟩ := ih seen hnd hle
        refine ⟨ext, ?_, hnd2, hle2, ?_⟩
        · rw [collectGo, if_neg h4, if_pos hmem, heq]
        · rcases hor with h | h
          · exact Or.inl h
          · refine Or.inr ?_
            intro x hx
            rcases List.mem_cons.mp hx with h2 | h2
            · subst h2
              exact List.mem_append.mpr (Or.inl hmem)
            · exact h x h2
      · have hnd1 : (seen ++ [n]).Nodup := by
          rw [List.nodup_append]
          refine ⟨hnd, List.nodup_singleton n, ?_⟩
          intro x hx hk
          rw [List.mem_singleton] at hk
          subst hk
          exact hmem hx
        have hle1 : (seen ++ [n]).length ≤ 4 := by
          simp only [List.length_append, List.length_singleton]
          omega
        obtain ⟨ext, heq, hnd2, hle2, hor⟩ := ih (seen ++ [n]) hnd1 hle1
        refine ⟨n :: ext, ?_, ?_, ?_, ?_⟩
        · rw [collectGo, if_neg h4, if_neg hmem, heq]
          simp
        · simpa using hnd2
        · simpa using hle2
        · rcases hor with h | h
          · left
            simpa using h
          · refine Or.inr ?_
            intro x hx
            rcases List.mem_cons.mp hx with h2 | h2
            · subst h2
              simp
            · have := h x h2
              simpa using this

/-- On a suffix containing every id, the collection scan returns a
permutation of all four cities. -/
theorem collectGo_all (suf : List (Fin 4)) (hall : ∀ x : Fin 4, x ∈ suf) :
    (collectGo [] suf).Perm (List.finRange 4) := by
  obtain ⟨ext, heq, hnd, hle, hor⟩ := collectGo_spec suf [] (List.nodup_nil) (by simp)
  rw [heq]
  simp only [List.nil_append] at *
  rcases hor with h | h
  · exact nodup_four_perm ext hnd h
  · have hsub : List.finRange 4 ⊆ ext := fun x _ => h x (hall x)
    have hsp := (List.nodup_finRange 4).subperm hsub
    have hge : 4 ≤ ext.length := by
      have := hsp.length_le
      simpa using this
    exact nodup_four_perm ext hnd (le_antisymm hle hge)

theorem eigen2Go_valid (a : Mat) :
    ∀ (sufs : List (List (Fin 4))) (acc : Option (ℚ × List (Fin 4))),
      (∀ b, acc = some b → ValidTour b.2 ∧ b.1 = loopCost a b.2) →
      ∀ r, eigen2Go a sufs acc = some r → ValidTour r.2 ∧ r.1 = loopCost a r.2 := by
  intro sufs
  induction sufs with
  | nil =>
    intro acc hacc r hr
    exact hacc r hr
  | cons suf rest ih =>
    intro acc hacc r hr
    have hperm : ¬ (collectGo [] suf).length < 4 → ValidTour (eigen2Cand suf) := by
      intro hlen
      obtain ⟨ext, heq, hnd, hle, _⟩ := collectGo_spec suf [] List.nodup_nil (by simp)
      refine close_tour_valid _ ?_
      rw [heq] at hlen ⊢
      simp only [List.nil_append] at *
      exact nodup_four_perm ext hnd (by omega)
    cases acc with
    | none =>
      rw [eigen2Go] at hr
      by_cases hlen : (collectGo [] suf).length < 4
      · rw [if_pos hlen] at hr
        cases hr
      · rw [if_neg hlen] at hr
        refine ih _ ?_ r hr
        intro b hb
        rw [← Option.some_inj.mp hb]
        exact ⟨hperm hlen, rfl⟩
    | some b =>
      rw [eigen2Go] at hr
      by_cases hlen : (collectGo [] suf).length < 4
      · rw [if_pos hlen] at hr
        exact hacc r hr
      · rw [if_neg hlen] at hr
        by_cases hlt : loopCost a (eigen2Cand suf) < b.1
        · rw [if_pos hlt] at hr
          refine ih _ ?_ r hr
          intro b' hb'
          rw [← Option.some_inj.mp hb']
          exact ⟨hperm hlen, rfl⟩
        · rw [if_neg hlt] at hr
          refine ih _ ?_ r hr
          intro b' hb'
          rw [← Option.some_inj.mp hb']
          exact hacc b rfl

theorem eigen2Go_isSome (a : Mat) :
    ∀ (sufs : List (List (Fin 4))) (b : ℚ × List (Fin 4)),
      ∃ r, eigen2Go a sufs (some b) = some r := by
  intro sufs
  induction sufs with
  | nil => intro b; exact ⟨b, rfl⟩
  | cons suf rest ih =>
    intro b
    rw [eigen2Go]
    by_cases hlen : (collectGo [] suf).length < 4
    · rw [if_pos hlen]
      exact ⟨b, rfl⟩
    · rw [if_neg hlen]
      by_cases hlt : loopCost a (eigen2Cand suf) < b.1
      · rw [if_pos hlt]
        exact ih _
      · rw [if_neg hlt]
        exact ih b

/-- Specification of `Eigen2`\'s result: when every id occurs in the sorted
node list (as it does in the source, where each id occurs eight times), the
returned pair is a valid tour with its true recomputed cost. -/
theorem Eigen2_spec (ns : List (Fin 4)) (a : Mat) (hall : ∀ x : Fin 4, x ∈ ns) :
    ValidTour (Eigen2 ns a).2 ∧ (Eigen2 ns a).1 = loopCost a (Eigen2 ns a).2 := by
  rcases hns : ns with _ | ⟨n, tl⟩
  · have := hall 0
    rw [hns] at this
    cases this
  rw [← hns]
  have hlen : ns.length = tl.length + 1 := by rw [hns]; rfl
  have hrange : (List.range ns.length).map (fun i => ns.drop i) =
      ns :: ((List.range tl.length).map (fun i => ns.drop (i + 1))) := by
    rw [hlen, List.range_succ_eq_map]
    simp [List.map_map, Function.comp]
  have hfull : ¬ (collectGo [] ns).length < 4 := by
    have hperm := collectGo_all ns hall
    rw [hperm.length_eq, List.length_finRange]
    omega
  have hvalid : ValidTour (eigen2Cand ns) :=
    close_tour_valid _ (collectGo_all ns hall)
  rw [Eigen2, hrange, eigen2Go, if_neg hfull]
  obtain ⟨r, hr⟩ := eigen2Go_isSome a ((List.range tl.length).map (fun i => ns.drop (i + 1)))
    (loopCost a (eigen2Cand ns), eigen2Cand ns)
  rw [hr]
  have := eigen2Go_valid a ((List.range tl.length).map (fun i => ns.drop (i + 1)))
    (some (loopCost a (eigen2Cand ns), eigen2Cand ns))
    (by
      intro b hb
      rw [← Option.some_inj.mp hb]
      exact ⟨hvalid, rfl⟩) r hr
  simpa using this

/-! ### The experiment harness (`test` and `main`) -/

/-- Everything the eigendecomposition collaborator feeds into the three
eigen-based heuristics of one trial: the two derived spectral distance
matrices consumed by `Eigen`, and the rank-sorted id list consumed by
`Eigen2`.  `none` at the call sites below models `Factorize` reporting
failure. -/
structure EigenData where
  distances : Mat
  leftDistances : Mat
  ranked : List (Fin 4)

/-- Function `Eigen` with its `ok := eig.Factorize(...)` check: on failure the
function aborts the trial with the diagnostic `"Eigendecomposition failed"`
(a Go `panic`), modelled as an `Except.error`. -/
def EigenChecked (dec : Option EigenData) (a : Mat) : Except String (ℚ × List (Fin 4)) :=
  match dec with
  | none => Except.error "Eigendecomposition failed"
  | some d => Except.ok (eigenSolve d.distances d.leftDistances a)

/-- Function `Eigen2` with its factorization check. -/
def Eigen2Checked (dec : Option EigenData) (a : Mat) : Except String (ℚ × List (Fin 4)) :=
  match dec with
  | none => Except.error "Eigendecomposition failed"
  | some d => Except.ok (Eigen2 d.ranked a)

/-- Function `EigenKMeans` uses eigen vectors and kmeans: after a successful
factorization and a successful 2-cluster partition (whose cluster data the
non-debug path never reads), it returns `0, nil` unconditionally.  A
partition error `err` aborts the trial with that error (`panic(err)`). -/
def EigenKMeans (dec : Option EigenData) (part : Except String (List (List ℚ))) :
    Except String (ℚ × List (Fin 4)) :=
  match dec with
  | none => Except.error "Eigendecomposition failed"
  | some _ =>
    match part with
    | Except.error e => Except.error e
    | Except.ok _ => Except.ok ((0 : ℚ), ([] : List (Fin 4)))

/-- The external, per-trial inputs of one `test()` call that are produced
outside this repository: the rank-sorted city list from the `pagerank`
library, the eigendecomposition outcome, the k-means partition outcome, and
the embedding distance matrix produced by `Neural2`'s training. -/
structure TrialInputs where
  cities : List (Fin 4)
  dec : Option EigenData
  part : Except String (List (List ℚ))
  neuralDist : Mat

/-- One non-debug `test()` call: run `Search`, `PageRank`, `Eigen`, `Eigen2`,
`NearestNeighbor`, `EigenKMeans` and `Neural2` on the trial's matrix, abort
on the first diagnostic, and return the two recorded agreement flags
`(total0 == total5, total0 == total4)` — `Neural2` and `NearestNeighbor`
against the exact cost. -/
def testRun (a : Mat) (inp : TrialInputs) : Except String (Bool × Bool) :=
  match EigenChecked inp.dec a with
  | Except.error e => Except.error e
  | Except.ok _ =>
    match Eigen2Checked inp.dec a with
    | Except.error e => Except.error e
    | Except.ok _ =>
      match EigenKMeans inp.dec inp.part with
      | Except.error e => Except.error e
      | Except.ok _ =>
        Except.ok ((Search a).1 == (neural2Solve inp.neuralDist a).1,
                   (Search a).1 == (NearestNeighbor a).1)

/-- The two counters of `main`'s non-debug loop
(`eigenCount` counts first-flag trials, `nnCount` second-flag trials). -/
def mainCounts (flags : List (Bool × Bool)) : Nat × Nat :=
  flags.foldl
    (fun c f => (if f.1 then c.1 + 1 else c.1, if f.2 then c.2 + 1 else c.2)) (0, 0)

/-- The final report of `main`: the two agreement fractions over 1024 trials. -/
def mainReport (flags : List (Bool × Bool)) : ℚ × ℚ :=
  (((mainCounts flags).1 : ℚ) / 1024, ((mainCounts flags).2 : ℚ) / 1024)

/-- The 1024-trial loop of `main`: collect each trial's flags, aborting the
whole run on the first diagnostic. -/
def harnessFlags : List (Mat × TrialInputs) → Except String (List (Bool × Bool))
  | [] => Except.ok []
  | (a, inp) :: rest =>
    match testRun a inp with
    | Except.error e => Except.error e
    | Except.ok f =>
      match harnessFlags rest with
      | Except.error e => Except.error e
      | Except.ok fs => Except.ok (f :: fs)

/-- Function `main` in non-debug mode: run all trials, then report the two fractions. -/
def mainRun (trials : List (Mat × TrialInputs)) : Except String (ℚ × ℚ) :=
  match harnessFlags trials with
  | Except.error e => Except.error e
  | Except.ok fs => Except.ok (mainReport fs)

theorem mainCounts_eq (flags : List (Bool × Bool)) :
    mainCounts flags = (flags.countP (fun f => f.1), flags.countP (fun f => f.2)) := by
  have key : ∀ (l : List (Bool × Bool)) (c : Nat × Nat),
      l.foldl (fun c f => (if f.1 then c.1 + 1 else c.1, if f.2 then c.2 + 1 else c.2)) c =
        (c.1 + l.countP (fun f => f.1), c.2 + l.countP (fun f => f.2)) := by
    intro l
    induction l with
    | nil => intro c; simp [List.countP, List.countP.go]
    | cons f fs ih =>
      intro c
      rw [List.foldl_cons, ih]
      rcases c with ⟨c1, c2⟩
      rw [List.countP_cons, List.countP_cons]
      by_cases h1 : f.1 <;> by_cases h2 : f.2 <;>
        simp [h1, h2] <;> omega
  rw [mainCounts, key]
  simp

/-! ### The spectral distance derivation of `Eigen` (for claim C4) -/

/-- Complex numbers with exactly-represented components, as handed back by
the eigendecomposition collaborator (`values` and the entries of the
eigenvector matrices). -/
structure Cx where
  re : ℚ
  im : ℚ

/-- Complex multiplication (`values[k] * vectors.At(i, k)`). -/
def Cx.mul (x y : Cx) : Cx :=
  ⟨x.re * y.re - x.im * y.im, x.re * y.im + x.im * y.re⟩

/-- Complex subtraction. -/
def Cx.sub (x y : Cx) : Cx := ⟨x.re - y.re, x.im - y.im⟩

/-- Squared complex modulus. -/
def Cx.normSq (x : Cx) : ℚ := x.re * x.re + x.im * x.im

/-- The inner loop of `Eigen`'s distance derivation:
`x := real(values[k]*vectors.At(i,k)) - real(values[k]*vectors.At(j,k));
sum += x * x` over `k = 0..Size-1`. -/
def eigenSumSq (values : Fin 4 → Cx) (vectors : Fin 4 → Fin 4 → Cx) (i j : Fin 4) : ℚ :=
  (List.finRange 4).foldl
    (fun s k =>
      s + (((values k).mul (vectors i k)).re - ((values k).mul (vectors j k)).re) *
          (((values k).mul (vectors i k)).re - ((values k).mul (vectors j k)).re)) 0

/-- The assignment `distances[i*Size+j] = math.Sqrt(sum) * a[i*Size+j]` (diagonal skipped,
hence left at `0`).  This is what `Eigen` actually computes. -/
noncomputable def spectralDistance (values : Fin 4 → Cx) (vectors : Fin 4 → Fin 4 → Cx)
    (a : Mat) (i j : Fin 4) : ℝ :=
  if i = j then 0 else Real.sqrt ((eigenSumSq values vectors i j : ℚ) : ℝ) * (a i j : ℝ)

/-- The spec's formula: `sqrt(sum_k |λ_k·v_ik − λ_k·v_jk|^2) * a[i][j]` with
`|.|` the complex modulus of the complex difference. -/
noncomputable def specSpectralDistance (values : Fin 4 → Cx) (vectors : Fin 4 → Fin 4 → Cx)
    (a : Mat) (i j : Fin 4) : ℝ :=
  Real.sqrt ((((Finset.univ : Finset (Fin 4)).sum
    (fun k => (((values k).mul (vectors i k)).sub ((values k).mul (vectors j k))).normSq) : ℚ) : ℝ)) *
    (a i j : ℝ)

theorem foldl_add_eq_sum (f : Fin 4 → ℚ) :
    ∀ (l : List (Fin 4)) (init : ℚ),
      l.foldl (fun s k => s + f k) init = init + (l.map f).sum := by
  intro l
  induction l with
  | nil => intro init; simp
  | cons x xs ih =>
    intro init
    rw [List.foldl_cons, ih, List.map_cons, List.sum_cons]
    ring

theorem eigenSumSq_eq_sum (values : Fin 4 → Cx) (vectors : Fin 4 → Fin 4 → Cx) (i j : Fin 4) :
    eigenSumSq values vectors i j =
      (Finset.univ : Finset (Fin 4)).sum
        (fun k => (((values k).mul (vectors i k)).re - ((values k).mul (vectors j k)).re) ^ 2) := by
  rw [eigenSumSq, foldl_add_eq_sum
    (fun k => (((values k).mul (vectors i k)).re - ((values k).mul (vectors j k)).re) *
      (((values k).mul (vectors i k)).re - ((values k).mul (vectors j k)).re))]
  rw [zero_add]
  rw [← List.sum_toFinset _ (List.nodup_finRange 4), List.toFinset_finRange]
  apply Finset.sum_congr rfl
  intro k _
  ring

/-! ### Gradient clipping in the training loops (for claim C9) -/

/-- The accumulation `sum += d * d` over the flattened gradient entries. -/
def sumSq (g : List ℝ) : ℝ := g.foldl (fun s d => s + d * d) 0

/-- The norm `norm := math.Sqrt(sum)`: the global gradient norm. -/
noncomputable def gradNorm (g : List ℝ) : ℝ := Real.sqrt (sumSq g)

/-- The clipping factor `scaling := 1.0; if norm > 1 { scaling = 1 / norm }`. -/
noncomputable def clipScaling (g : List ℝ) : ℝ :=
  if 1 < gradNorm g then 1 / gradNorm g else 1

/-- The update `deltas[j][k] = alpha*deltas[j][k] - eta*d*scaling`: the momentum update
applied to the velocity vector, elementwise over the flattened parameters. -/
noncomputable def velocityStep (alpha eta scaling : ℝ) (delta grad : List ℝ) : List ℝ :=
  List.zipWith (fun dl d => alpha * dl - eta * d * scaling) delta grad

theorem sumSq_eq_sum_map (g : List ℝ) : sumSq g = (g.map (fun d => d * d)).sum := by
  have key : ∀ (l : List ℝ) (init : ℝ),
      l.foldl (fun s d => s + d * d) init = init + (l.map (fun d => d * d)).sum := by
    intro l
    induction l with
    | nil => intro init; simp
    | cons x xs ih =>
      intro init
      rw [List.foldl_cons, ih, List.map_cons, List.sum_cons]
      ring
  rw [sumSq, key, zero_add]

theorem sumSq_nonneg (g : List ℝ) : 0 ≤ sumSq g := by
  rw [sumSq_eq_sum_map]
  apply List.sum_nonneg
  intro x hx
  rcases List.mem_map.mp hx with ⟨d, _, rfl⟩
  exact mul_self_nonneg d

theorem gradNorm_nonneg (g : List ℝ) : 0 ≤ gradNorm g := Real.sqrt_nonneg _

theorem clipScaling_nonneg (g : List ℝ) : 0 ≤ clipScaling g := by
  rw [clipScaling]
  by_cases h : 1 < gradNorm g
  · rw [if_pos h]
    positivity
  · rw [if_neg h]
    exact zero_le_one

theorem sumSq_map_mul (c : ℝ) (g : List ℝ) :
    sumSq (g.map (fun d => c * d)) = c ^ 2 * sumSq g := by
  rw [sumSq_eq_sum_map, sumSq_eq_sum_map, List.map_map]
  have : ((fun d => d * d) ∘ fun d => c * d) = fun d => c ^ 2 * (d * d) := by
    funext d
    simp [Function.comp]
    ring
  rw [this, List.sum_map_mul_left]

theorem gradNorm_map_mul (c : ℝ) (hc : 0 ≤ c) (g : List ℝ) :
    gradNorm (g.map (fun d => c * d)) = c * gradNorm g := by
  rw [gradNorm, gradNorm, sumSq_map_mul, Real.sqrt_mul (sq_nonneg c), Real.sqrt_sq hc]

/-! ### The claims -/

/-- Claim C1: for every 4x4 distance matrix with non-negative entries and
zero diagonal, the cost returned by `Search` is the minimum cost over all
Hamiltonian cycles (valid tours) of the matrix: it is a lower bound on every
valid tour's cost and is attained by one; in particular it is at most the
true cost of every tour returned by `PageRank`, `Eigen`, `Eigen2`,
`NearestNeighbor` and `Neural2` on the same matrix, whatever rank orders and
derived affinity matrices the external collaborators supply. -/
theorem claim_C1 (a : Mat) (hnn : ∀ i j, 0 ≤ a i j) (hdiag : ∀ i, a i i = 0) :
    (∀ t, ValidTour t → (Search a).1 ≤ loopCost a t) ∧
    (∃ t, ValidTour t ∧ (Search a).1 = loopCost a t) ∧
    (∀ cities, cities.Perm (List.finRange 4) → (Search a).1 ≤ (PageRank cities a).1) ∧
    (∀ d dl, (Search a).1 ≤ (eigenSolve d dl a).1) ∧
    (∀ ns, (∀ x : Fin 4, x ∈ ns) → (Search a).1 ≤ (Eigen2 ns a).1) ∧
    ((Search a).1 ≤ (NearestNeighbor a).1) ∧
    (∀ d, (Search a).1 ≤ (neural2Solve d a).1) := by
  refine ⟨Search_le a, ?_, ?_, ?_, ?_, ?_, ?_⟩
  · rcases Search_achieved a with ⟨t, ht, heq⟩
    exact ⟨t, ht, by rw [heq]⟩
  · intro cities hp
    exact Search_le a _ (pageTour_valid cities hp)
  · intro d dl
    obtain ⟨hv, hc⟩ := eigenSolve_spec d dl a
    rw [hc]
    exact Search_le a _ hv
  · intro ns hall
    obtain ⟨hv, hc⟩ := Eigen2_spec ns a hall
    rw [hc]
    exact Search_le a _ hv
  · obtain ⟨hv, hc⟩ := NearestNeighbor_spec a
    rw [hc]
    exact Search_le a _ hv
  · intro d
    obtain ⟨hv, hc⟩ := neural2Solve_spec d a
    rw [hc]
    exact Search_le a _ hv

theorem claim_C1_witness :
    (∀ i j, 0 ≤ refMatrix i j) ∧ (∀ i, refMatrix i i = 0) ∧
    ((∀ t, ValidTour t → (Search refMatrix).1 ≤ loopCost refMatrix t) ∧
     (∃ t, ValidTour t ∧ (Search refMatrix).1 = loopCost refMatrix t) ∧
     (∀ cities, cities.Perm (List.finRange 4) →
        (Search refMatrix).1 ≤ (PageRank cities refMatrix).1) ∧
     (∀ d dl, (Search refMatrix).1 ≤ (eigenSolve d dl refMatrix).1) ∧
     (∀ ns, (∀ x : Fin 4, x ∈ ns) → (Search refMatrix).1 ≤ (Eigen2 ns refMatrix).1) ∧
     ((Search refMatrix).1 ≤ (NearestNeighbor refMatrix).1) ∧
     (∀ d, (Search refMatrix).1 ≤ (neural2Solve d refMatrix).1)) := by
  refine ⟨?_, ?_, ?_⟩
  · decide
  · decide
  · exact claim_C1 refMatrix (by decide) (by decide)

/-- Claim C2: on the fixed reference matrix
`{{0,20,42,35},{20,0,30,34},{42,30,0,12},{35,34,12,0}}`, `Search` returns
cost exactly 97. -/
theorem claim_C2 : (Search refMatrix).1 = 97 := by
  with_unfolding_all rfl

/-- Claim C5: the `N-1 steps then close` loop form (`NearestNeighbor`,
`Eigen`) and the `N steps with an early exit` loop form (`Neural`, `Neural2`)
build identical greedy tours from every start offset on every 4x4 affinity
matrix, hence the minimum-cost selection over all offsets coincides for the
two forms on the same affinity and true-distance matrices. -/
theorem claim_C5 (d : Mat) (offset : Fin 4) (a : Mat) :
    greedyLoopA d offset = greedyLoopB d offset ∧
    chooseBest none ((List.finRange 4).map (candA d a)) =
      chooseBest none ((List.finRange 4).map (candB d a)) := by
  refine ⟨greedyLoopA_eq_greedyLoopB d offset, ?_⟩
  have h : candA d a = candB d a := by
    funext o
    rw [candA, candB, greedyLoopA_eq_greedyLoopB]
  rw [h]

/-- Claim C6: every tour returned by `Search`, `PageRank`, `Eigen`,
`NearestNeighbor` and `Neural2` is a closed list of length 5 whose first four
entries are exactly the four cities, each once (for `PageRank`, under the
external ranking library's guarantee that every city is ranked once). -/
theorem claim_C6 (a : Mat) :
    ValidTour (Search a).2 ∧
    (∀ cities, cities.Perm (List.finRange 4) → ValidTour (PageRank cities a).2) ∧
    (∀ d dl, ValidTour (eigenSolve d dl a).2) ∧
    ValidTour (NearestNeighbor a).2 ∧
    (∀ d, ValidTour (neural2Solve d a).2) := by
  refine ⟨?_, ?_, ?_, (NearestNeighbor_spec a).1, fun d => (neural2Solve_spec d a).1⟩
  · rcases Search_achieved a with ⟨t, ht, heq⟩
    rw [heq]
    exact ht
  · intro cities hp
    exact pageTour_valid cities hp
  · intro d dl
    exact (eigenSolve_spec d dl a).1

/-- Claim C8: for `Search`, `PageRank`, `Eigen`, `NearestNeighbor` and
`Neural2`, recomputing the returned tour's cost from its node sequence and
the original matrix yields exactly the returned cost value. -/
theorem claim_C8 (a : Mat) :
    (Search a).1 = loopCost a (Search a).2 ∧
    (∀ cities, (PageRank cities a).1 = loopCost a (PageRank cities a).2) ∧
    (∀ d dl, (eigenSolve d dl a).1 = loopCost a (eigenSolve d dl a).2) ∧
    ((NearestNeighbor a).1 = loopCost a (NearestNeighbor a).2) ∧
    (∀ d, (neural2Solve d a).1 = loopCost a (neural2Solve d a).2) := by
  refine ⟨?_, fun cities => rfl, fun d dl => (eigenSolve_spec d dl a).2,
    (NearestNeighbor_spec a).2, fun d => (neural2Solve_spec d a).2⟩
  rcases Search_achieved a with ⟨t, ht, heq⟩
  rw [heq]

/-- Fixed, successfully-decomposed eigen data used by concrete harness runs. -/
def refEigenData : EigenData := ⟨refMatrix, refMatrix, [0, 1, 2, 3]⟩

/-- A trial input whose rank order makes `PageRank` hit the optimal tour. -/
def refInputsA : TrialInputs := ⟨[0, 1, 2, 3], some refEigenData, Except.ok [], refMatrix⟩

/-- A trial input differing from `refInputsA` only in the rank order, which
makes `PageRank` miss the optimal tour. -/
def refInputsB : TrialInputs := ⟨[1, 2, 0, 3], some refEigenData, Except.ok [], refMatrix⟩

/-- Claim C3 counterexample: two trials on the reference matrix that differ
only in `PageRank`'s rank order — making `PageRank` agree with the exact
cost in one and disagree in the other — produce identical harness reports,
so the harness does not record (or report) `PageRank`'s agreement. -/
theorem claim_C3_counterexample :
    mainRun [(refMatrix, refInputsA)] = mainRun [(refMatrix, refInputsB)] ∧
    (PageRank refInputsA.cities refMatrix).1 = (Search refMatrix).1 ∧
    (PageRank refInputsB.cities refMatrix).1 ≠ (Search refMatrix).1 := by
  refine ⟨?_, ?_, ?_⟩
  · with_unfolding_all rfl
  · with_unfolding_all rfl
  · have h1 : (PageRank refInputsB.cities refMatrix).1 = 141 := by with_unfolding_all rfl
    have h2 : (Search refMatrix).1 = 97 := by with_unfolding_all rfl
    rw [h1, h2]
    norm_num

/-- Claim C3 (amended): for every run of the non-debug harness, each
successful trial records exactly two agreement flags — whether `Neural2`'s
cost and whether `NearestNeighbor`'s cost equals the exact cost from
`Search` — and after 1024 trials the harness reports the fraction of
agreeing trials for those two heuristics (`PageRank`, `Eigen` and `Eigen2`
are invoked but not folded into the statistics). -/
theorem claim_C3_amended :
    (∀ (a : Mat) (inp : TrialInputs) (r : Bool × Bool),
      testRun a inp = Except.ok r →
        r = ((Search a).1 == (neural2Solve inp.neuralDist a).1,
             (Search a).1 == (NearestNeighbor a).1)) ∧
    (∀ flags : List (Bool × Bool), flags.length = 1024 →
      mainReport flags =
        (((flags.countP (fun f => f.1) : ℚ)) / 1024,
         ((flags.countP (fun f => f.2) : ℚ)) / 1024)) := by
  constructor
  · intro a inp r hr
    rcases inp with ⟨cities, dec, part, nd⟩
    cases dec with
    | none =>
      rw [testRun] at hr
      simp [EigenChecked] at hr
    | some d =>
      cases part with
      | error e =>
        rw [testRun] at hr
        simp [EigenChecked, Eigen2Checked, EigenKMeans] at hr
      | ok c =>
        rw [testRun] at hr
        simp only [EigenChecked, Eigen2Checked, EigenKMeans] at hr
        exact (Except.ok.inj hr).symm
  · intro flags _
    rw [mainReport, mainCounts_eq]

theorem claim_C3_amended_witness :
    testRun refMatrix refInputsA =
      Except.ok ((Search refMatrix).1 == (neural2Solve refInputsA.neuralDist refMatrix).1,
                 (Search refMatrix).1 == (NearestNeighbor refMatrix).1) ∧
    (List.replicate 1024 ((true : Bool), (true : Bool))).length = 1024 ∧
    mainReport (List.replicate 1024 ((true : Bool), (true : Bool))) =
      (((List.replicate 1024 ((true : Bool), (true : Bool))).countP (fun f => f.1) : ℚ) / 1024,
       ((List.replicate 1024 ((true : Bool), (true : Bool))).countP (fun f => f.2) : ℚ) / 1024) := by
  have h1 : testRun refMatrix refInputsA = Except.ok ((true : Bool), (true : Bool)) := by
    with_unfolding_all rfl
  have h2 := claim_C3_amended.1 refMatrix refInputsA ((true : Bool), (true : Bool)) h1
  exact ⟨by rw [h1, h2], by rw [List.length_replicate],
    claim_C3_amended.2 _ (by rw [List.length_replicate])⟩

/-- Claim C4 (amended): the spectral pairwise distance `Eigen` computes for
distinct `i`, `j` is `sqrt(sum_k (Re(λ_k·v_ik) − Re(λ_k·v_jk))^2) * a[i][j]` —
the real parts are taken before subtracting and squaring, not the complex
modulus of the complex difference. -/
theorem claim_C4_amended (values : Fin 4 → Cx) (vectors : Fin 4 → Fin 4 → Cx)
    (a : Mat) (i j : Fin 4) (hij : i ≠ j) :
    spectralDistance values vectors a i j =
      Real.sqrt (((Finset.univ : Finset (Fin 4)).sum
        (fun k => (((values k).mul (vectors i k)).re -
          ((values k).mul (vectors j k)).re) ^ 2) : ℚ)) * (a i j : ℝ) := by
  rw [spectralDistance, if_neg hij, eigenSumSq_eq_sum]

/-- Eigenvalues `(i, 0, 0, 0)` (the imaginary unit first). -/
def cxValues : Fin 4 → Cx := fun k => if k = 0 then ⟨0, 1⟩ else ⟨0, 0⟩

/-- Eigenvector matrix with a single nonzero entry `v_00 = 1`. -/
def cxVectors : Fin 4 → Fin 4 → Cx := fun i k => if i = 0 ∧ k = 0 then ⟨1, 0⟩ else ⟨0, 0⟩

/-- The all-ones weighting matrix. -/
def onesMat : Mat := fun _ _ => 1

/-- Claim C4 counterexample: on eigendecomposition output with a genuinely
complex eigenvalue, the distance `Eigen` computes (real parts first) is `0`
while the spec's complex-modulus formula gives `1`: the two formulas differ. -/
theorem claim_C4_counterexample :
    spectralDistance cxValues cxVectors onesMat 0 1 = 0 ∧
    specSpectralDistance cxValues cxVectors onesMat 0 1 = 1 ∧
    spectralDistance cxValues cxVectors onesMat 0 1 ≠
      specSpectralDistance cxValues cxVectors onesMat 0 1 := by
  have h1 : eigenSumSq cxValues cxVectors 0 1 = 0 := by with_unfolding_all rfl
  have h2 : ((Finset.univ : Finset (Fin 4)).sum
      (fun k => (((cxValues k).mul (cxVectors 0 k)).sub
        ((cxValues k).mul (cxVectors 1 k))).normSq)) = 1 := by with_unfolding_all rfl
  have ha : onesMat 0 1 = 1 := rfl
  have hc1 : spectralDistance cxValues cxVectors onesMat 0 1 = 0 := by
    rw [spectralDistance, if_neg (by decide : ¬ (0 : Fin 4) = 1), h1]
    rw [Rat.cast_zero, Real.sqrt_zero, zero_mul]
  have hc2 : specSpectralDistance cxValues cxVectors onesMat 0 1 = 1 := by
    rw [specSpectralDistance, h2, ha]
    rw [Rat.cast_one, Real.sqrt_one, one_mul]
  refine ⟨hc1, hc2, ?_⟩
  rw [hc1, hc2]
  norm_num

theorem claim_C4_amended_witness :
    ((0 : Fin 4) ≠ 1) ∧
    spectralDistance cxValues cxVectors onesMat 0 1 =
      Real.sqrt (((Finset.univ : Finset (Fin 4)).sum
        (fun k => (((cxValues k).mul (cxVectors 0 k)).re -
          ((cxValues k).mul (cxVectors 1 k)).re) ^ 2) : ℚ)) * (onesMat 0 1 : ℝ) :=
  ⟨by decide, claim_C4_amended cxValues cxVectors onesMat 0 1 (by decide)⟩

/-- Claim C7: a failed eigendecomposition makes `Eigen`, `Eigen2` and
`EigenKMeans` abort with the diagnostic `"Eigendecomposition failed"`; the
trial produces no agreement flags, the whole harness run aborts with that
diagnostic, and a successful trial always yields flags (`Except.ok`), so the
failure is surfaced distinctly from a heuristic merely disagreeing. -/
theorem claim_C7 :
    (∀ (a : Mat), EigenChecked none a = Except.error "Eigendecomposition failed") ∧
    (∀ (a : Mat), Eigen2Checked none a = Except.error "Eigendecomposition failed") ∧
    (∀ (part : Except String (List (List ℚ))),
      EigenKMeans none part = Except.error "Eigendecomposition failed") ∧
    (∀ (a : Mat) (inp : TrialInputs), inp.dec = none →
      testRun a inp = Except.error "Eigendecomposition failed") ∧
    (∀ (a : Mat) (inp : TrialInputs) (rest : List (Mat × TrialInputs)), inp.dec = none →
      harnessFlags ((a, inp) :: rest) = Except.error "Eigendecomposition failed") ∧
    (∀ (a : Mat) (cities : List (Fin 4)) (d : EigenData) (c : List (List ℚ)) (nd : Mat),
      ∃ flags, testRun a ⟨cities, some d, Except.ok c, nd⟩ = Except.ok flags) ∧
    (∀ (e : String) (f : Bool × Bool),
      (Except.error e : Except String (Bool × Bool)) ≠ Except.ok f) := by
  have htest : ∀ (a : Mat) (inp : TrialInputs), inp.dec = none →
      testRun a inp = Except.error "Eigendecomposition failed" := by
    intro a inp h
    rcases inp with ⟨cities, dec, part, nd⟩
    simp only at h
    subst h
    rfl
  refine ⟨fun a => rfl, fun a => rfl, fun part => rfl, htest, ?_, ?_, ?_⟩
  · intro a inp rest h
    rw [harnessFlags, htest a inp h]
  · intro a cities d c nd
    exact ⟨_, rfl⟩
  · intro e f h
    cases h

/-- A trial input whose eigendecomposition failed. -/
def refInputsFail : TrialInputs := ⟨[0, 1, 2, 3], none, Except.ok [], refMatrix⟩

theorem claim_C7_witness :
    refInputsFail.dec = none ∧
    testRun refMatrix refInputsFail = Except.error "Eigendecomposition failed" ∧
    harnessFlags [(refMatrix, refInputsFail)] =
      Except.error "Eigendecomposition failed" :=
  ⟨rfl, claim_C7.2.2.2.1 refMatrix refInputsFail rfl,
   claim_C7.2.2.2.2.1 refMatrix refInputsFail [] rfl⟩

/-- Claim C9: each training iteration of `Neural` and `Neural2` scales the
gradient by `1` when the global gradient norm is at most `1` and by
`1/norm` otherwise, updates the velocity as
`alpha*delta - eta*gradient*scaling`, and therefore the norm of the gradient
contribution `eta*gradient*scaling` of one step never exceeds the learning
rate `eta`. -/
theorem claim_C9 (g : List ℝ) (eta : ℝ) (heta : 0 ≤ eta) :
    (gradNorm g ≤ 1 → clipScaling g = 1) ∧
    (1 < gradNorm g → clipScaling g = 1 / gradNorm g) ∧
    (∀ alpha delta, velocityStep alpha eta (clipScaling g) delta g =
      List.zipWith (fun dl d => alpha * dl - eta * d * clipScaling g) delta g) ∧
    gradNorm (g.map (fun d => eta * d * clipScaling g)) ≤ eta := by
  refine ⟨?_, ?_, fun alpha delta => rfl, ?_⟩
  · intro h
    rw [clipScaling, if_neg (not_lt.mpr h)]
  · intro h
    rw [clipScaling, if_pos h]
  · have hs := clipScaling_nonneg g
    have hmap : (fun d => eta * d * clipScaling g) = fun d => (eta * clipScaling g) * d := by
      funext x
      ring
    rw [hmap, gradNorm_map_mul _ (mul_nonneg heta hs)]
    rw [clipScaling]
    by_cases h : 1 < gradNorm g
    · rw [if_pos h]
      have hne : gradNorm g ≠ 0 := (lt_trans zero_lt_one h).ne'
      field_simp
    · rw [if_neg h]
      calc eta * 1 * gradNorm g = eta * gradNorm g := by ring
        _ ≤ eta * 1 := mul_le_mul_of_nonneg_left (le_of_not_lt h) heta
        _ = eta := mul_one eta

theorem claim_C9_witness :
    (0 : ℝ) ≤ 3 / 10 ∧
    ((gradNorm [(1 : ℝ)] ≤ 1 → clipScaling [(1 : ℝ)] = 1) ∧
     (1 < gradNorm [(1 : ℝ)] → clipScaling [(1 : ℝ)] = 1 / gradNorm [(1 : ℝ)]) ∧
     (∀ alpha delta, velocityStep alpha (3 / 10) (clipScaling [(1 : ℝ)]) delta [(1 : ℝ)] =
       List.zipWith (fun dl d => alpha * dl - (3 / 10) * d * clipScaling [(1 : ℝ)])
         delta [(1 : ℝ)]) ∧
     gradNorm ([(1 : ℝ)].map (fun d => (3 / 10) * d * clipScaling [(1 : ℝ)])) ≤ 3 / 10) :=
  ⟨by norm_num, claim_C9 [(1 : ℝ)] (3 / 10) (by norm_num)⟩

/-- Claim C10: whenever the eigendecomposition and the 2-cluster k-means
partition succeed, `EigenKMeans` returns cost `0` and the empty (`nil`) tour
regardless of its input, and its return value never influences the agreement
flags the harness records: a trial's flags are the same for every partition
outcome and depend only on `Search`, `Neural2` and `NearestNeighbor`. -/
theorem claim_C10 (d : EigenData) (c : List (List ℚ)) :
    EigenKMeans (some d) (Except.ok c) = Except.ok ((0 : ℚ), ([] : List (Fin 4))) ∧
    (∀ (a : Mat) (cities : List (Fin 4)) (nd : Mat) (c' : List (List ℚ)),
      testRun a ⟨cities, some d, Except.ok c, nd⟩ =
        testRun a ⟨cities, some d, Except.ok c', nd⟩) ∧
    (∀ (a : Mat) (cities : List (Fin 4)) (nd : Mat),
      testRun a ⟨cities, some d, Except.ok c, nd⟩ =
        Except.ok ((Search a).1 == (neural2Solve nd a).1,
                   (Search a).1 == (NearestNeighbor a).1)) :=
  ⟨rfl, fun a cities nd c' => rfl, fun a cities nd => rfl⟩

end Salesman
